import Mathlib

/-!
# FoodRush cart module — shallow embedding and verification

A shallow embedding of the shopping-cart core of `src/script.js` (the `Cart`
IIFE, lines 212–405) together with proofs of the specification's claims about
it.

Modelling conventions:
* JavaScript numbers that can become `NaN` (a unit price produced by
  `parseFloat`) are modelled as `Option ℚ`, with `none` playing the role of
  `NaN`; `jsAdd`/`jsMul` propagate `none` exactly as JS arithmetic propagates
  `NaN`.  Quantities and deltas are genuine integers in the source (always
  produced by `+ 1`/`+ delta` from integer literals), so they are modelled
  as `ℤ`.
* The mutable module-level array `items` becomes explicit state passing: each
  mutating operation is a function `List LineItem → List LineItem`.
* DOM side effects (class toggling, re-render) are modelled only where a
  claim needs them: the drawer's visibility (presence of the `is-open` class)
  is a two-state type `Vis`, and the toast shown by `add` is a pure pair
  (message, kind).
-/

namespace FoodRush

/-- One cart line item, mirroring the object literal pushed by `add`
(`{ id, name, price, qty, emoji }`, script.js lines 244–250). -/
structure LineItem where
  id : String
  name : String
  /-- The value of `parseFloat(price)`; `none` models `NaN`. -/
  price : Option ℚ
  qty : ℤ
  emoji : String
deriving DecidableEq

/-- JS addition on numbers-that-may-be-NaN: `NaN` absorbs. -/
def jsAdd : Option ℚ → Option ℚ → Option ℚ
  | some a, some b => some (a + b)
  | _, _ => none

/-- JS multiplication on numbers-that-may-be-NaN: `NaN` absorbs. -/
def jsMul : Option ℚ → Option ℚ → Option ℚ
  | some a, some b => some (a * b)
  | _, _ => none

/-- Split a character list into its longest prefix of decimal digits and the
rest (helper for `parseFloat`). -/
def takeDigits : List Char → List Char × List Char
  | [] => ([], [])
  | c :: cs =>
    if c.isDigit then
      let p := takeDigits cs
      (c :: p.1, p.2)
    else ([], c :: cs)

/-- Numeric value of a list of decimal digit characters. -/
def digitsVal (ds : List Char) : ℕ :=
  ds.foldl (fun a c => a * 10 + (c.toNat - 48)) 0

/-- Model of JavaScript `parseFloat` on the decimal strings the cart uses:
skip leading whitespace, read an optional sign, an integer part and an
optional fractional part, and ignore everything after (as `parseFloat` stops
at the first invalid character).  Returns `none` (`NaN`) when no digits are
consumed.  Exponent notation is not modelled; no cart input uses it. -/
def parseFloat (s : String) : Option ℚ :=
  let cs := s.toList.dropWhile (fun c => c.isWhitespace)
  let sc : ℚ × List Char :=
    match cs with
    | '-' :: r => (-1, r)
    | '+' :: r => (1, r)
    | _ => (1, cs)
  let ip := takeDigits sc.2
  let fp : List Char × List Char :=
    match ip.2 with
    | '.' :: r => takeDigits r
    | _ => ([], ip.2)
  if ip.1 = [] ∧ fp.1 = [] then none
  else some (sc.1 * ((digitsVal ip.1 : ℚ) + (digitsVal fp.1 : ℚ) / (10 : ℚ) ^ fp.1.length))

/-- The static emoji lookup `emojiMap` (script.js lines 217–226). -/
def emojiMap (id : String) : Option String :=
  if id = "1" then some "🍔"
  else if id = "2" then some "🍕"
  else if id = "3" then some "🍣"
  else if id = "4" then some "🥗"
  else if id = "5" then some "🌮"
  else if id = "6" then some "🍜"
  else if id = "7" then some "🍰"
  else if id = "8" then some "🥙"
  else none

/-- The glyph stored on insertion: `emojiMap[id] || '🍽️'`. -/
def glyphFor (id : String) : String :=
  (emojiMap id).getD "🍽️"

/-- Add `d` to the quantity of the first item whose `id` matches, leaving
everything else untouched.  This is the functional rendering of the in-place
mutation `existing.qty += 1` / `item.qty += delta`, which the source applies
to the result of `items.find(...)` — the first match. -/
def updateFirstQty : List LineItem → String → ℤ → List LineItem
  | [], _, _ => []
  | i :: rest, id, d =>
    if i.id == id then { i with qty := i.qty + d } :: rest
    else i :: updateFirstQty rest id d

/-- The operation `add(id, name, price)` (script.js lines 239–255), state transition only:
if an item with this `id` exists, increment the first match's quantity by 1;
otherwise append a fresh item with quantity 1, `parseFloat`-ed price and the
looked-up glyph. -/
def add (items : List LineItem) (id name price : String) : List LineItem :=
  match items.find? (fun i => i.id == id) with
  | some _ => updateFirstQty items id 1
  | none => items ++ [⟨id, name, parseFloat price, 1, glyphFor id⟩]

/-- The toast shown by every `add` call (script.js line 254):
`showToast('🛒 ' + name + ' added to cart!', 'success')`, modelled as the
pair (message, kind). -/
def addToast (name : String) : String × String :=
  ("🛒 " ++ name ++ " added to cart!", "success")

/-- The operation `changeQty(id, delta)` (script.js lines 258–266): no-op when no item has
this `id`; otherwise add `delta` to the first match's quantity and, if the
resulting quantity is ≤ 0, remove every item with this `id` via
`items.filter(i => i.id !== id)`. -/
def changeQty (items : List LineItem) (id : String) (delta : ℤ) : List LineItem :=
  match items.find? (fun i => i.id == id) with
  | none => items
  | some item =>
    let updated := updateFirstQty items id delta
    if item.qty + delta ≤ 0 then updated.filter (fun i => i.id != id) else updated

/-- The query `getCount()` (script.js lines 269–271): `items.reduce((sum, i) => sum + i.qty, 0)`. -/
def getCount (items : List LineItem) : ℤ :=
  items.foldl (fun sum i => sum + i.qty) 0

/-- The query `getSubtotal()` (script.js lines 274–276):
`items.reduce((sum, i) => sum + i.price * i.qty, 0)`, with NaN propagation. -/
def getSubtotal (items : List LineItem) : Option ℚ :=
  items.foldl (fun sum i => jsAdd sum (jsMul i.price (some (i.qty : ℚ)))) (some 0)

/-- The delivery fee computed inside `render` (script.js line 291):
`items.length ? 2.99 : 0`. -/
def deliveryFee (items : List LineItem) : ℚ :=
  if items.length = 0 then 0 else (299 : ℚ) / 100

/-- The total computed inside `render` (script.js line 292):
`subtotal + delivery`. -/
def total (items : List LineItem) : Option ℚ :=
  jsAdd (getSubtotal items) (some (deliveryFee items))

/-- Folding a sequence of `add` calls for one fixed `id`, each with its own
`(name, price)` arguments. -/
def addSeq (items : List LineItem) (id : String) (ps : List (String × String)) :
    List LineItem :=
  ps.foldl (fun its p => add its id p.1 p.2) items

/-- A cart mutation: one `add` or one `changeQty` call. -/
inductive CartOp where
  | addOp (id name price : String)
  | chqOp (id : String) (delta : ℤ)
deriving DecidableEq

/-- Apply one cart mutation. -/
def applyOp (items : List LineItem) : CartOp → List LineItem
  | .addOp id name price => add items id name price
  | .chqOp id delta => changeQty items id delta

/-- Apply a sequence of cart mutations in order. -/
def applyOps (ops : List CartOp) (items : List LineItem) : List LineItem :=
  ops.foldl applyOp items

/-- The cart-collection invariant: ids are pairwise distinct and every stored
quantity is positive. -/
def Inv (items : List LineItem) : Prop :=
  (items.map (fun i => i.id)).Nodup ∧ ∀ i ∈ items, 0 < i.qty

/-- Visibility of the cart drawer: presence of the `is-open` class on
`#cartDrawer` (script.js lines 334–351). -/
inductive Vis where
  | Closed
  | Open
deriving DecidableEq

/-- The operation `open()` (script.js lines 334–341): `classList.add('is-open')` — the
drawer is open afterwards regardless of the prior state. -/
def openDrawer (_ : Vis) : Vis := .Open

/-- The operation `close()` (script.js lines 344–351): `classList.remove('is-open')`. -/
def closeDrawer (_ : Vis) : Vis := .Closed

/-- Initial visibility: the page loads with no `is-open` class. -/
def initialVis : Vis := .Closed

/-- Full cart state: the line-item collection plus drawer visibility. -/
structure CartState where
  items : List LineItem
  vis : Vis
deriving DecidableEq

/-- The operation `open()` on the full state: it only touches the drawer/overlay classes
and body style, never the `items` array. -/
def openCart (s : CartState) : CartState :=
  { s with vis := openDrawer s.vis }

/-- The operation `close()` on the full state: likewise touches only presentation state. -/
def closeCart (s : CartState) : CartState :=
  { s with vis := closeDrawer s.vis }

/-- One visibility operation. -/
inductive VisOp where
  | opn
  | cls
deriving DecidableEq

/-- Apply one visibility operation to the full state. -/
def applyVisOp (s : CartState) : VisOp → CartState
  | .opn => openCart s
  | .cls => closeCart s

/-- Apply a sequence of open/close calls. -/
def applyVisOps (s : CartState) (l : List VisOp) : CartState :=
  l.foldl applyVisOp s

end FoodRush

namespace FoodRush

/-! ## Helper lemmas -/

/-- Updating a quantity via `updateFirstQty` never changes the sequence of ids. -/
theorem updateFirstQty_map_id (items : List LineItem) (id : String) (d : ℤ) :
    (updateFirstQty items id d).map (fun i => i.id) = items.map (fun i => i.id) := by
  induction items with
  | nil => rfl
  | cons x rest ih =>
    by_cases hx : x.id == id
    · simp [updateFirstQty, hx]
    · simp [updateFirstQty, hx, ih]

/-- Decomposition of a successful `find?` on the id predicate: the list splits
around the first match, and `updateFirstQty` rewrites exactly that element. -/
theorem find?_id_decomp {items : List LineItem} {id : String} {item : LineItem}
    (h : items.find? (fun i => i.id == id) = some item) :
    ∃ pre post, items = pre ++ item :: post ∧ (∀ i ∈ pre, i.id ≠ id) ∧ item.id = id ∧
      ∀ d, updateFirstQty items id d = pre ++ { item with qty := item.qty + d } :: post := by
  induction items with
  | nil => simp at h
  | cons x rest ih =>
    by_cases hx : x.id == id
    · rw [List.find?_cons_of_pos (p := fun i : LineItem => i.id == id) _ hx] at h
      obtain rfl : x = item := by injection h
      refine ⟨[], rest, rfl, by simp, by simpa using hx, ?_⟩
      intro d
      simp [updateFirstQty, hx]
    · rw [List.find?_cons_of_neg (p := fun i : LineItem => i.id == id) _ hx] at h
      obtain ⟨pre, post, hsplit, hpre, hid, hupd⟩ := ih h
      refine ⟨x :: pre, post, by simp [hsplit], ?_, hid, ?_⟩
      · intro i hi
        rcases List.mem_cons.mp hi with rfl | hi
        · simpa using hx
        · exact hpre i hi
      · intro d
        simp [updateFirstQty, hx, hupd d]

/-- Searching with `find?` on the id predicate succeeds on a list whose last element carries
the id and whose prefix is free of it. -/
theorem find?_id_append_last {pre : List LineItem} {it : LineItem} {id : String}
    (hpre : ∀ i ∈ pre, i.id ≠ id) (hit : it.id = id) :
    (pre ++ [it]).find? (fun i => i.id == id) = some it := by
  induction pre with
  | nil => simp [List.find?_cons_of_pos, hit]
  | cons x rest ih =>
    have hx : ¬(x.id == id) = true := by
      simpa using hpre x (List.mem_cons_self x rest)
    have : (x :: (rest ++ [it])).find? (fun i => i.id == id)
        = (rest ++ [it]).find? (fun i => i.id == id) :=
      List.find?_cons_of_neg _ (by simpa using hx)
    simpa [this] using ih (fun i hi => hpre i (List.mem_cons_of_mem x hi))

/-- Applying `updateFirstQty` on such a list rewrites the last element. -/
theorem updateFirstQty_append_last {pre : List LineItem} {it : LineItem} {id : String}
    (hpre : ∀ i ∈ pre, i.id ≠ id) (hit : it.id = id) (d : ℤ) :
    updateFirstQty (pre ++ [it]) id d = pre ++ [{ it with qty := it.qty + d }] := by
  induction pre with
  | nil => simp [updateFirstQty, hit]
  | cons x rest ih =>
    have hx : x.id ≠ id := hpre x (List.mem_cons_self x rest)
    simp [updateFirstQty, hx, ih (fun i hi => hpre i (List.mem_cons_of_mem x hi))]

end FoodRush

namespace FoodRush

/-! ## C5 — changeQty on an absent id -/

/-- C5: for every cart state and every id not present in it,
`changeQty(id, delta)` leaves the cart state completely unchanged: no item is
created and no existing item is modified. -/
theorem changeQty_absent_noop (items : List LineItem) (id : String) (delta : ℤ)
    (h : ∀ i ∈ items, i.id ≠ id) :
    changeQty items id delta = items := by
  have hfind : items.find? (fun i => i.id == id) = none :=
    List.find?_eq_none.mpr (fun x hx => by simpa using h x hx)
  simp [changeQty, hfind]

/-- Witness for C5 at a concrete cart and a stale id. -/
theorem changeQty_absent_noop_witness :
    (∀ i ∈ [LineItem.mk "1" "Burger" (some 5) 2 "🍔"], i.id ≠ "9") ∧
    changeQty [LineItem.mk "1" "Burger" (some 5) 2 "🍔"] "9" (-1)
      = [LineItem.mk "1" "Burger" (some 5) 2 "🍔"] :=
  ⟨by decide, changeQty_absent_noop _ "9" (-1) (by decide)⟩

/-! ## C2 — changeQty on a present id -/

/-- C2: for a cart satisfying the positivity invariant and an id stored in it
(`find?` returns `item`), `changeQty id delta` adds `delta` to that item's
quantity in place when the result stays positive, removes every line with
that id when the result is ≤ 0 (in particular for `delta = -item.qty`), and
never leaves a non-positive quantity stored. -/
theorem changeQty_present_spec (items : List LineItem) (id : String) (delta : ℤ)
    (item : LineItem)
    (hpos : ∀ i ∈ items, 0 < i.qty)
    (hfind : items.find? (fun i => i.id == id) = some item) :
    (0 < item.qty + delta →
      ∃ pre post, items = pre ++ item :: post ∧ (∀ i ∈ pre, i.id ≠ id) ∧
        changeQty items id delta = pre ++ { item with qty := item.qty + delta } :: post) ∧
    (item.qty + delta ≤ 0 → ∀ j ∈ changeQty items id delta, j.id ≠ id) ∧
    (∀ j ∈ changeQty items id delta, 0 < j.qty) := by
  obtain ⟨pre, post, hsplit, hpre, hid, hupd⟩ := find?_id_decomp hfind
  have hcq : changeQty items id delta =
      if item.qty + delta ≤ 0
        then (updateFirstQty items id delta).filter (fun i => i.id != id)
        else updateFirstQty items id delta := by
    unfold changeQty
    rw [hfind]
  refine ⟨?_, ?_, ?_⟩
  · intro hgt
    have hle' : ¬ item.qty + delta ≤ 0 := by omega
    exact ⟨pre, post, hsplit, hpre, by rw [hcq, if_neg hle', hupd delta]⟩
  · intro hle j hj
    rw [hcq, if_pos hle] at hj
    simpa using (List.mem_filter.mp hj).2
  · intro j hj
    have hmem_pre : ∀ j ∈ pre, j ∈ items := by
      intro j hj
      rw [hsplit]
      exact List.mem_append.mpr (Or.inl hj)
    have hmem_post : ∀ j ∈ post, j ∈ items := by
      intro j hj
      rw [hsplit]
      exact List.mem_append.mpr (Or.inr (List.mem_cons_of_mem _ hj))
    by_cases hle : item.qty + delta ≤ 0
    · rw [hcq, if_pos hle] at hj
      obtain ⟨hj', hne⟩ := List.mem_filter.mp hj
      rw [hupd delta] at hj'
      rcases List.mem_append.mp hj' with hjp | hjc
      · exact hpos j (hmem_pre j hjp)
      · rcases List.mem_cons.mp hjc with rfl | hjpost
        · exact absurd hid (by simpa using hne)
        · exact hpos j (hmem_post j hjpost)
    · rw [hcq, if_neg hle, hupd delta] at hj
      rcases List.mem_append.mp hj with hjp | hjc
      · exact hpos j (hmem_pre j hjp)
      · rcases List.mem_cons.mp hjc with rfl | hjpost
        · show (0 : ℤ) < item.qty + delta
          omega
        · exact hpos j (hmem_post j hjpost)

/-- Witness for C2: decrementing a quantity-2 line by its full quantity at a
concrete cart; both hypotheses hold there. -/
theorem changeQty_present_spec_witness :
    (∀ i ∈ [LineItem.mk "1" "Burger" (some 5) 2 "🍔"], 0 < i.qty) ∧
    ((LineItem.mk "1" "Burger" (some 5) 2 "🍔").qty + (-2) ≤ 0 →
      ∀ j ∈ changeQty [LineItem.mk "1" "Burger" (some 5) 2 "🍔"] "1" (-2), j.id ≠ "1") :=
  ⟨by decide,
    (changeQty_present_spec [LineItem.mk "1" "Burger" (some 5) 2 "🍔"] "1" (-2)
      (LineItem.mk "1" "Burger" (some 5) 2 "🍔") (by decide) (by rfl)).2.1⟩

/-! ## C9 — visibility state machine -/

/-- C9: the drawer's visibility has exactly the two states Closed and Open
with initial state Closed; `open()` always yields Open, `close()` always
yields Closed, both idempotent, and `open(); close()` ends Closed. -/
theorem visibility_state_machine (s : Vis) :
    openDrawer s = Vis.Open ∧ closeDrawer s = Vis.Closed ∧
    openDrawer (openDrawer s) = Vis.Open ∧ closeDrawer (closeDrawer s) = Vis.Closed ∧
    closeDrawer (openDrawer s) = Vis.Closed ∧ initialVis = Vis.Closed ∧
    (s = Vis.Closed ∨ s = Vis.Open) := by
  cases s <;> simp [openDrawer, closeDrawer, initialVis]

/-! ## C10 — open/close frame property -/

/-- Every open/close sequence leaves the item collection untouched. -/
theorem applyVisOps_items (s : CartState) (l : List VisOp) :
    (applyVisOps s l).items = s.items := by
  induction l generalizing s with
  | nil => rfl
  | cons op rest ih =>
    have hstep : (applyVisOp s op).items = s.items := by cases op <;> rfl
    calc (applyVisOps s (op :: rest)).items
        = (applyVisOps (applyVisOp s op) rest).items := rfl
      _ = (applyVisOp s op).items := ih _
      _ = s.items := hstep

/-- C10: `open()` and `close()` modify only the visibility state — the
line-item list (hence also every value of `getCount` and `getSubtotal`) is
unchanged by any sequence of open/close calls. -/
theorem open_close_frame (s : CartState) (l : List VisOp) :
    (applyVisOps s l).items = s.items ∧
    getCount (applyVisOps s l).items = getCount s.items ∧
    getSubtotal (applyVisOps s l).items = getSubtotal s.items := by
  have h := applyVisOps_items s l
  exact ⟨h, by rw [h], by rw [h]⟩

end FoodRush

namespace FoodRush

/-! ## C1 — repeated add with one id -/

/-- Running any `add` sequence for `id` over a list whose single `id`-carrier
is its last element just accumulates into that element's quantity. -/
theorem addSeq_loop (id : String) (ps : List (String × String)) :
    ∀ (pre : List LineItem) (it : LineItem), it.id = id → (∀ i ∈ pre, i.id ≠ id) →
      addSeq (pre ++ [it]) id ps = pre ++ [{ it with qty := it.qty + (ps.length : ℤ) }] := by
  induction ps with
  | nil =>
    intro pre it hit hpre
    simp [addSeq]
  | cons p ps ih =>
    intro pre it hit hpre
    have hfind := find?_id_append_last hpre hit
    have hadd : add (pre ++ [it]) id p.1 p.2 = pre ++ [{ it with qty := it.qty + 1 }] := by
      unfold add
      rw [hfind]
      exact updateFirstQty_append_last hpre hit 1
    have hstep : addSeq (pre ++ [it]) id (p :: ps) = addSeq (add (pre ++ [it]) id p.1 p.2) id ps := rfl
    rw [hstep, hadd, ih pre { it with qty := it.qty + 1 } hit hpre]
    have hq : it.qty + 1 + (ps.length : ℤ) = it.qty + ((p :: ps).length : ℤ) := by
      simp [List.length_cons]
      ring
    simp [hq]

/-- C1: starting from any cart free of `id`, a sequence of `n ≥ 1` calls
`add(id, nameₖ, priceₖ)` appends exactly one line item for `id`, with
quantity `n` and the name/price/glyph of the first call (first-write-wins);
no other part of the cart changes and the new line sits at the end. -/
theorem add_same_id_accumulates (items : List LineItem) (id : String)
    (p : String × String) (ps : List (String × String))
    (h : ∀ i ∈ items, i.id ≠ id) :
    addSeq items id (p :: ps) =
      items ++ [⟨id, p.1, parseFloat p.2, ((p :: ps).length : ℤ), glyphFor id⟩] ∧
    (addSeq items id (p :: ps)).filter (fun i => i.id == id) =
      [⟨id, p.1, parseFloat p.2, ((p :: ps).length : ℤ), glyphFor id⟩] := by
  have hfind : items.find? (fun i => i.id == id) = none :=
    List.find?_eq_none.mpr (fun x hx => by simpa using h x hx)
  have hadd : add items id p.1 p.2 = items ++ [⟨id, p.1, parseFloat p.2, 1, glyphFor id⟩] := by
    unfold add
    rw [hfind]
  have hmain : addSeq items id (p :: ps) =
      items ++ [⟨id, p.1, parseFloat p.2, ((p :: ps).length : ℤ), glyphFor id⟩] := by
    have hstep : addSeq items id (p :: ps) = addSeq (add items id p.1 p.2) id ps := rfl
    rw [hstep, hadd, addSeq_loop id ps items ⟨id, p.1, parseFloat p.2, 1, glyphFor id⟩ rfl h]
    have hq : (1 : ℤ) + (ps.length : ℤ) = ((p :: ps).length : ℤ) := by
      simp [List.length_cons]
      ring
    simp [hq]
  refine ⟨hmain, ?_⟩
  rw [hmain, List.filter_append]
  have h1 : items.filter (fun i => i.id == id) = [] := by
    rw [List.filter_eq_nil_iff]
    intro a ha
    simpa using h a ha
  simp [h1]

/-- Witness for C1: two adds of id "1" from the empty cart produce one
Burger line with quantity 2. -/
theorem add_same_id_accumulates_witness :
    (∀ i ∈ ([] : List LineItem), i.id ≠ "1") ∧
    addSeq [] "1" [("Burger", "5.00"), ("Burger", "5.00")] =
      [] ++ [⟨"1", "Burger", parseFloat "5.00",
        (([("Burger", "5.00"), ("Burger", "5.00")].length : ℕ) : ℤ), glyphFor "1"⟩] :=
  ⟨by decide,
    (add_same_id_accumulates [] "1" ("Burger", "5.00") [("Burger", "5.00")] (by decide)).1⟩

/-! ## C8 — derived queries recomputed from state -/

/-- The query `getCount` is the sum of the stored quantities (helper shared by C3). -/
theorem getCount_eq_sum (items : List LineItem) :
    getCount items = (items.map (fun i => i.qty)).sum := by
  have aux : ∀ (l : List LineItem) (acc : ℤ),
      l.foldl (fun s i => s + i.qty) acc = acc + (l.map (fun i => i.qty)).sum := by
    intro l
    induction l with
    | nil => intro acc; simp
    | cons x rest ih => intro acc; simp [ih, add_assoc]
  simpa [getCount] using aux items 0

/-- C8: `getCount` equals the sum of all stored quantities, and (when no
stored price is NaN) `getSubtotal` equals the sum of `unitPrice * quantity`
recomputed over the current collection; both are pure functions of the
collection, so no cached value can drift. -/
theorem count_subtotal_recomputed (items : List LineItem)
    (h : ∀ i ∈ items, i.price ≠ none) :
    getCount items = (items.map (fun i => i.qty)).sum ∧
    getSubtotal items =
      some ((items.map (fun i => i.price.getD 0 * (i.qty : ℚ))).sum) := by
  refine ⟨getCount_eq_sum items, ?_⟩
  have aux : ∀ (l : List LineItem), (∀ i ∈ l, i.price ≠ none) → ∀ r : ℚ,
      l.foldl (fun s i => jsAdd s (jsMul i.price (some (i.qty : ℚ)))) (some r)
        = some (r + (l.map (fun i => i.price.getD 0 * (i.qty : ℚ))).sum) := by
    intro l
    induction l with
    | nil =>
      intro _ r
      simp
    | cons x rest ih =>
      intro hx r
      obtain ⟨q, hq⟩ := Option.ne_none_iff_exists'.mp (hx x (List.mem_cons_self x rest))
      have hstep : jsAdd (some r) (jsMul x.price (some (x.qty : ℚ)))
          = some (r + q * (x.qty : ℚ)) := by
        rw [hq]
        rfl
      rw [List.foldl_cons, hstep,
        ih (fun i hi => hx i (List.mem_cons_of_mem x hi)) (r + q * (x.qty : ℚ))]
      simp [hq, add_assoc]
  simpa [getSubtotal] using aux items h 0

/-- Witness for C8 at a one-line cart with a well-formed price. -/
theorem count_subtotal_recomputed_witness :
    (∀ i ∈ [LineItem.mk "1" "Burger" (some 5) 2 "🍔"], i.price ≠ none) ∧
    getCount [LineItem.mk "1" "Burger" (some 5) 2 "🍔"]
      = ([LineItem.mk "1" "Burger" (some 5) 2 "🍔"].map (fun i => i.qty)).sum :=
  ⟨by decide,
    (count_subtotal_recomputed [LineItem.mk "1" "Burger" (some 5) 2 "🍔"] (by decide)).1⟩

/-! ## C3 — delivery fee business rule -/

/-- C3: under the positivity invariant the rendered total is exactly the
subtotal when the cart is empty (`getCount = 0`), and the subtotal plus the
fixed 2.99 fee when the cart is non-empty (`getCount > 0`). -/
theorem total_delivery_fee (items : List LineItem) (h : ∀ i ∈ items, 0 < i.qty) :
    (getCount items = 0 → total items = getSubtotal items) ∧
    (0 < getCount items →
      total items = jsAdd (getSubtotal items) (some ((299 : ℚ) / 100))) := by
  constructor
  · intro h0
    have hnil : items = [] := by
      by_contra hne
      have hposc : 0 < getCount items := by
        rw [getCount_eq_sum]
        refine List.sum_pos _ (fun q hq => ?_) ?_
        · obtain ⟨i, hi, rfl⟩ := List.mem_map.mp hq
          exact h i hi
        · simpa using hne
      omega
    subst hnil
    simp [total, getSubtotal, deliveryFee, jsAdd]
  · intro hposc
    have hne : items.length ≠ 0 := by
      intro hlen
      rw [List.length_eq_zero] at hlen
      subst hlen
      simp [getCount] at hposc
    have hfee : deliveryFee items = (299 : ℚ) / 100 := by
      unfold deliveryFee
      rw [if_neg hne]
    rw [total, hfee]

/-- Witness for C3: the fee applies on a concrete non-empty cart. -/
theorem total_delivery_fee_witness :
    (∀ i ∈ [LineItem.mk "1" "Burger" (some 5) 2 "🍔"], 0 < i.qty) ∧
    (0 < getCount [LineItem.mk "1" "Burger" (some 5) 2 "🍔"] ∧
      total [LineItem.mk "1" "Burger" (some 5) 2 "🍔"]
        = jsAdd (getSubtotal [LineItem.mk "1" "Burger" (some 5) 2 "🍔"])
            (some ((299 : ℚ) / 100))) :=
  ⟨by decide,
    by decide,
    (total_delivery_fee [LineItem.mk "1" "Burger" (some 5) 2 "🍔"] (by decide)).2 (by decide)⟩

end FoodRush

namespace FoodRush

/-! ## C4 — invariant preservation -/

/-- The operation `add` preserves the cart invariant. -/
theorem add_preserves_inv (items : List LineItem) (id name price : String)
    (h : Inv items) : Inv (add items id name price) := by
  obtain ⟨hnodup, hpos⟩ := h
  cases hfind : items.find? (fun i => i.id == id) with
  | none =>
    have hfresh : ∀ i ∈ items, i.id ≠ id := fun i hi => by
      simpa using List.find?_eq_none.mp hfind i hi
    have hadd : add items id name price
        = items ++ [⟨id, name, parseFloat price, 1, glyphFor id⟩] := by
      unfold add
      rw [hfind]
    rw [hadd]
    constructor
    · simp only [List.map_append, List.map_cons, List.map_nil]
      rw [List.nodup_append]
      refine ⟨hnodup, List.nodup_singleton id, ?_⟩
      intro a ha hb
      obtain ⟨i, hi, rfl⟩ := List.mem_map.mp ha
      have : i.id = id := by simpa using hb
      exact hfresh i hi this
    · intro i hi
      rcases List.mem_append.mp hi with hi | hi
      · exact hpos i hi
      · have : i = ⟨id, name, parseFloat price, 1, glyphFor id⟩ := by simpa using hi
        rw [this]
        exact Int.one_pos
  | some item =>
    have hadd : add items id name price = updateFirstQty items id 1 := by
      unfold add
      rw [hfind]
    obtain ⟨pre, post, hsplit, hpre, hid, hupd⟩ := find?_id_decomp hfind
    have hitem : item ∈ items := List.mem_of_find?_eq_some hfind
    rw [hadd]
    constructor
    · rw [updateFirstQty_map_id]
      exact hnodup
    · intro j hj
      rw [hupd 1] at hj
      rcases List.mem_append.mp hj with hjp | hjc
      · refine hpos j ?_
        rw [hsplit]
        exact List.mem_append.mpr (Or.inl hjp)
      · rcases List.mem_cons.mp hjc with rfl | hjpost
        · have := hpos item hitem
          show (0 : ℤ) < item.qty + 1
          omega
        · refine hpos j ?_
          rw [hsplit]
          exact List.mem_append.mpr (Or.inr (List.mem_cons_of_mem _ hjpost))

/-- The operation `changeQty` preserves the cart invariant. -/
theorem changeQty_preserves_inv (items : List LineItem) (id : String) (delta : ℤ)
    (h : Inv items) : Inv (changeQty items id delta) := by
  obtain ⟨hnodup, hpos⟩ := h
  cases hfind : items.find? (fun i => i.id == id) with
  | none =>
    have hcq : changeQty items id delta = items := by
      unfold changeQty
      rw [hfind]
    rw [hcq]
    exact ⟨hnodup, hpos⟩
  | some item =>
    obtain ⟨pre, post, hsplit, hpre, hid, hupd⟩ := find?_id_decomp hfind
    have hcq : changeQty items id delta =
        if item.qty + delta ≤ 0
          then (updateFirstQty items id delta).filter (fun i => i.id != id)
          else updateFirstQty items id delta := by
      unfold changeQty
      rw [hfind]
    have hmem_pre : ∀ j ∈ pre, j ∈ items := by
      intro j hj
      rw [hsplit]
      exact List.mem_append.mpr (Or.inl hj)
    have hmem_post : ∀ j ∈ post, j ∈ items := by
      intro j hj
      rw [hsplit]
      exact List.mem_append.mpr (Or.inr (List.mem_cons_of_mem _ hj))
    by_cases hle : item.qty + delta ≤ 0
    · rw [hcq, if_pos hle]
      constructor
      · have hsub : List.Sublist
            (((updateFirstQty items id delta).filter (fun i => i.id != id)).map
              (fun i => i.id))
            ((updateFirstQty items id delta).map (fun i => i.id)) :=
          List.Sublist.map (fun i : LineItem => i.id) (List.filter_sublist _)
        rw [updateFirstQty_map_id] at hsub
        exact List.Nodup.sublist hsub hnodup
      · intro j hj
        obtain ⟨hj', hne⟩ := List.mem_filter.mp hj
        rw [hupd delta] at hj'
        rcases List.mem_append.mp hj' with hjp | hjc
        · exact hpos j (hmem_pre j hjp)
        · rcases List.mem_cons.mp hjc with rfl | hjpost
          · exact absurd hid (by simpa using hne)
          · exact hpos j (hmem_post j hjpost)
    · rw [hcq, if_neg hle]
      constructor
      · rw [updateFirstQty_map_id]
        exact hnodup
      · intro j hj
        rw [hupd delta] at hj
        rcases List.mem_append.mp hj with hjp | hjc
        · exact hpos j (hmem_pre j hjp)
        · rcases List.mem_cons.mp hjc with rfl | hjpost
          · show (0 : ℤ) < item.qty + delta
            omega
          · exact hpos j (hmem_post j hjpost)

/-- Every operation sequence preserves the invariant. -/
theorem applyOps_preserves_inv (ops : List CartOp) :
    ∀ items, Inv items → Inv (applyOps ops items) := by
  induction ops with
  | nil =>
    intro items h
    exact h
  | cons op rest ih =>
    intro items h
    have h1 : Inv (applyOp items op) := by
      cases op with
      | addOp id name price => exact add_preserves_inv items id name price h
      | chqOp id delta => exact changeQty_preserves_inv items id delta h
    exact ih _ h1

/-- C4: in every state reachable from the empty cart by `add` and
`changeQty` calls, each id appears at most once and every stored quantity is
positive. -/
theorem cart_invariant_reachable (ops : List CartOp) : Inv (applyOps ops []) :=
  applyOps_preserves_inv ops [] ⟨List.nodup_nil, by simp⟩

/-! ## C7 — insertion order -/

/-- Mapping ids commutes with filtering by id. -/
theorem map_id_filter (l : List LineItem) (id : String) :
    (l.filter (fun i => i.id != id)).map (fun i => i.id)
      = (l.map (fun i => i.id)).filter (fun x => x != id) := by
  induction l with
  | nil => rfl
  | cons x rest ih =>
    by_cases hx : (x.id != id) = true
    · simp [List.filter_cons, hx, ih]
    · simp [List.filter_cons, hx, ih]

/-- C7: the id sequence records insertion order of first adds — an `add` of
an existing id keeps the id sequence unchanged, an `add` of a new id appends
it at the end, and `changeQty` either keeps the id sequence or removes
exactly the affected id, never re-ordering the remaining ones. -/
theorem order_insertion_preserved (items : List LineItem) (id name price : String)
    (delta : ℤ) :
    ((∃ j ∈ items, j.id = id) →
      (add items id name price).map (fun i => i.id) = items.map (fun i => i.id)) ∧
    ((∀ j ∈ items, j.id ≠ id) →
      (add items id name price).map (fun i => i.id)
        = items.map (fun i => i.id) ++ [id]) ∧
    ((changeQty items id delta).map (fun i => i.id) = items.map (fun i => i.id) ∨
      (changeQty items id delta).map (fun i => i.id)
        = (items.map (fun i => i.id)).filter (fun x => x != id)) := by
  refine ⟨?_, ?_, ?_⟩
  · rintro ⟨j, hj, hjid⟩
    have hsome : (items.find? (fun i => i.id == id)).isSome := by
      rw [List.find?_isSome]
      exact ⟨j, hj, by simpa using hjid⟩
    obtain ⟨item, hfind⟩ := Option.isSome_iff_exists.mp hsome
    have hadd : add items id name price = updateFirstQty items id 1 := by
      unfold add
      rw [hfind]
    rw [hadd, updateFirstQty_map_id]
  · intro hfresh
    have hfind : items.find? (fun i => i.id == id) = none :=
      List.find?_eq_none.mpr (fun x hx => by simpa using hfresh x hx)
    have hadd : add items id name price
        = items ++ [⟨id, name, parseFloat price, 1, glyphFor id⟩] := by
      unfold add
      rw [hfind]
    rw [hadd]
    simp
  · cases hfind : items.find? (fun i => i.id == id) with
    | none =>
      left
      have hcq : changeQty items id delta = items := by
        unfold changeQty
        rw [hfind]
      rw [hcq]
    | some item =>
      have hcq : changeQty items id delta =
          if item.qty + delta ≤ 0
            then (updateFirstQty items id delta).filter (fun i => i.id != id)
            else updateFirstQty items id delta := by
        unfold changeQty
        rw [hfind]
      by_cases hle : item.qty + delta ≤ 0
      · right
        rw [hcq, if_pos hle, map_id_filter, updateFirstQty_map_id]
      · left
        rw [hcq, if_neg hle, updateFirstQty_map_id]

/-- Witness for C7: adding an existing id keeps the id order unchanged. -/
theorem order_insertion_preserved_witness :
    (add [LineItem.mk "1" "Burger" (some 5) 2 "🍔"] "1" "Other" "9").map (fun i => i.id)
      = [LineItem.mk "1" "Burger" (some 5) 2 "🍔"].map (fun i => i.id) :=
  (order_insertion_preserved [LineItem.mk "1" "Burger" (some 5) 2 "🍔"] "1" "Other" "9"
    0).1 ⟨LineItem.mk "1" "Burger" (some 5) 2 "🍔", List.mem_cons_self _ _, rfl⟩

end FoodRush

namespace FoodRush

/-! ## C6 — add with a malformed price -/

/-- Counterexample to C6 as stated: `add` with the unparsable price `"abc"`
on the empty cart DOES mutate the cart state — it appends a line item whose
unit price is NaN (`none`) — and the notification it fires is the ordinary
success toast, not an error-kind message. -/
theorem add_malformed_price_mutates :
    add [] "99" "Mystery" "abc" = [⟨"99", "Mystery", none, 1, "🍽️"⟩] ∧
    add [] "99" "Mystery" "abc" ≠ [] ∧
    (addToast "Mystery").2 = "success" ∧ "success" ≠ "error" := by
  refine ⟨by decide, by decide, rfl, by decide⟩

/-- C6 amended: a call to `add` whose price input is malformed (unparsable,
i.e. `parseFloat` yields NaN) does not throw, but it is NOT a failed add: on
a cart free of the id it appends a normal line item whose unit price is NaN,
and the notification shown is the standard success toast rather than an
error-kind message. -/
theorem add_malformed_price_behavior (items : List LineItem) (id name price : String)
    (hp : parseFloat price = none) (hfresh : ∀ i ∈ items, i.id ≠ id) :
    add items id name price = items ++ [⟨id, name, none, 1, glyphFor id⟩] ∧
    (addToast name).2 = "success" := by
  have hfind : items.find? (fun i => i.id == id) = none :=
    List.find?_eq_none.mpr (fun x hx => by simpa using hfresh x hx)
  have hadd : add items id name price
      = items ++ [⟨id, name, parseFloat price, 1, glyphFor id⟩] := by
    unfold add
    rw [hfind]
  rw [hadd, hp]
  exact ⟨rfl, rfl⟩

/-- Witness for the amended C6 at the concrete malformed price `"abc"`. -/
theorem add_malformed_price_behavior_witness :
    parseFloat "abc" = none ∧
    add [] "99" "Mystery" "abc" = [] ++ [⟨"99", "Mystery", none, 1, glyphFor "99"⟩] :=
  ⟨by decide, (add_malformed_price_behavior [] "99" "Mystery" "abc" (by decide)
    (by decide)).1⟩

end FoodRush
